import Mathlib

/-
Shallow embedding of `clonev.py` (repository djhshih/clonev).

The geometric core of the script is embedded over exact rationals `ℚ`:
Python floats carry exact decimal inputs through field operations here, and
every claim under study concerns the algebraic structure of the layout, not
floating-point rounding.  Fallible Python operations (list indexing,
division) are embedded in the `Except` monad: a Python exception that
escapes `create_clones` is an `Except.error`, and no partial result is
observable, just as a raised exception discards all local state.
-/

/-- Python runtime errors that the embedded code can raise. -/
inductive PyErr : Type where
  | indexError : PyErr
  | zeroDivisionError : PyErr
  | typeError : PyErr
deriving DecidableEq

instance {α : Type} [DecidableEq α] : DecidableEq (Except PyErr α) := fun a b =>
  match a, b with
  | .ok x, .ok y =>
      if h : x = y then .isTrue (by rw [h]) else .isFalse (by intro hc; cases hc; exact h rfl)
  | .ok _, .error _ => .isFalse (by intro hc; cases hc)
  | .error _, .ok _ => .isFalse (by intro hc; cases hc)
  | .error e, .error f =>
      if h : e = f then .isTrue (by rw [h]) else .isFalse (by intro hc; cases hc; exact h rfl)

/-- Python list indexing `l[i]` for a non-negative index: raises `IndexError`
when the index is out of range. -/
def pyGet {α : Type} (l : List α) (i : ℕ) : Except PyErr α :=
  if h : i < l.length then .ok (l.get ⟨i, h⟩) else .error .indexError

/-- Python list indexing `l[-1]`: the last element, `IndexError` on an empty
list. -/
def pyLast {α : Type} (l : List α) : Except PyErr α :=
  match l.getLast? with
  | some v => .ok v
  | none => .error .indexError

/-- Python division: raises `ZeroDivisionError` on a zero denominator. -/
def pyDiv (a b : ℚ) : Except PyErr ℚ :=
  if b = 0 then .error .zeroDivisionError else .ok (a / b)

/-- `linspace(a, b, n)` from clonev.py lines 11-15: for `n < 2` the Python
code returns the bare scalar `b` instead of a list, so the result type is a
sum. -/
def linspace (a b : ℚ) (n : ℕ) : Sum ℚ (List ℚ) :=
  if n < 2 then .inl b
  else
    let diff := (b - a) / ((n : ℚ) - 1)
    .inr ((List.range n).map (fun i : ℕ => diff * (i : ℚ) + a))

/-- One cairo path operation, the only drawing primitives used by
`Clone.path`. -/
inductive Seg : Type where
  | moveTo (p : ℚ × ℚ) : Seg
  | lineTo (p : ℚ × ℚ) : Seg
  | curveTo (c1 c2 p : ℚ × ℚ) : Seg
  | closePath : Seg
deriving DecidableEq

/-- The `Clone` record of clonev.py (lines 168-173): per-sample x
coordinates, vertical centers, and half-widths.  The `xs` field is a sum
because `create_clones` stores the raw result of `linspace` there, which for
fewer than two samples is a bare scalar (Python duck typing). -/
structure Clone : Type where
  xs : Sum ℚ (List ℚ)
  ys : List ℚ
  ws : List ℚ
deriving DecidableEq

/-- Top-edge loop of `Clone.path` (lines 195-198): each later sample adds a
cubic segment; the accumulator is the previous `(x0, y0, w0)` triple. -/
def topSegs : List (ℚ × ℚ × ℚ) → ℚ × ℚ × ℚ → List Seg
  | [], _ => []
  | (x, y, w) :: rest, (x0, y0, w0) =>
      Seg.curveTo ((x + x0) / 2, y0 - w0) ((x + x0) / 2, y - w) (x, y - w)
        :: topSegs rest (x, y, w)

/-- Bottom-edge loop of `Clone.path` (lines 204-207), mirrored with `+ w`. -/
def botSegs : List (ℚ × ℚ × ℚ) → ℚ × ℚ × ℚ → List Seg
  | [], _ => []
  | (x, y, w) :: rest, (x0, y0, w0) =>
      Seg.curveTo ((x + x0) / 2, y0 + w0) ((x + x0) / 2, y + w) (x, y + w)
        :: botSegs rest (x, y, w)

/-- Triple zip, the embedding of Python `zip(xs, ys, ws)` (truncates to the
shortest list). -/
def zip3 (a b c : List ℚ) : List (ℚ × ℚ × ℚ) :=
  a.zip (b.zip c)

/-- `Clone.path` (clonev.py lines 186-210): trace the top edge with cubic
segments, drop a straight connector to the bottom edge at the last sample,
trace the bottom edge back in reverse, close the path.  A scalar `xs`
raises `TypeError` at the subscript `xs[0]`; an empty list raises
`IndexError` there. -/
def Clone.path (c : Clone) : Except PyErr (List Seg) :=
  match c.xs with
  | .inl _ => .error .typeError
  | .inr xs => do
      let x0 ← pyGet xs 0
      let y0 ← pyGet c.ys 0
      let w0 ← pyGet c.ws 0
      let tops := zip3 xs.tail c.ys.tail c.ws.tail
      let xl ← pyLast xs
      let yl ← pyLast c.ys
      let wl ← pyLast c.ws
      let bots := zip3 xs.dropLast.reverse c.ys.dropLast.reverse c.ws.dropLast.reverse
      .ok (Seg.moveTo (x0, y0 - w0) :: topSegs tops (x0, y0, w0)
            ++ Seg.lineTo (xl, yl + wl) :: botSegs bots (tops.getLastD (x0, y0, w0))
            ++ [Seg.closePath])

/-- The guard of clonev.py lines 375-376: a center whose lower edge would
fall below −0.5 is reset to 0. -/
def clampY (f y : ℚ) : ℚ :=
  if y - f / 2 < -(1 / 2) then 0 else y

/-- The y-position loop of clonev.py lines 365-377: running `cumy` over
`(f, g)` pairs, emitting each clamped center. -/
def ysLoop (spacing shift : ℚ) : List (ℚ × ℚ) → ℚ → List ℚ
  | [], _ => []
  | (f, g) :: rest, cumy =>
      let cumy2 := cumy + f + spacing * g
      let y := cumy2 + shift - 1 / 2 - f / 2
      clampY f y :: ysLoop spacing shift rest cumy2

/-- The same loop without the clamp guard: the center value of line 371, as
computed just before the guard fires.  Used to state the pre-clamp claims. -/
def rawYs (spacing shift : ℚ) : List (ℚ × ℚ) → ℚ → List ℚ
  | [], _ => []
  | (f, g) :: rest, cumy =>
      let cumy2 := cumy + f + spacing * g
      (cumy2 + shift - 1 / 2 - f / 2) :: rawYs spacing shift rest cumy2

/-- Python `[f / d for f in xs]`: list comprehension with a fallible
division; used for the weight list of line 362 and the time normalization of
line 422. -/
def divAll : List ℚ → ℚ → Except PyErr (List ℚ)
  | [], _ => .ok []
  | x :: xs, d => do
      let y ← pyDiv x d
      let rest ← divAll xs d
      .ok (y :: rest)

/-- One time index of the y-position pass (clonev.py lines 346-377): given
the sub-clone frequency vector `fs` and the tumour fraction `purity`,
compute the spacing deficit, the centering shift, the normalized weights
(division by `sum(fs[1:])`, unguarded in the source), and the clamped
centers. -/
def ysAt (fs : List ℚ) (purity : ℚ) : Except PyErr (List ℚ) := do
  let freq_sum := fs.sum
  let spacing := min (purity - freq_sum) 0
  let shift := if freq_sum ≥ purity then (1 - purity) * (1 / 2) else (1 - freq_sum) * (1 / 2)
  let gtail ← divAll fs.tail fs.tail.sum
  .ok (ysLoop spacing shift (fs.zip ((0 : ℚ) :: gtail)) 0)

/-- Python `[clone_freq[i] for clone_freq in clone_freqs]` (lines 342-344):
collects the i-th frequency of every sub-clone, raising `IndexError` when a
series is shorter than `i + 1`. -/
def fsAt : List (List ℚ) → ℕ → Except PyErr (List ℚ)
  | [], _ => .ok []
  | cf :: cfs, i => do
      let x ← pyGet cf i
      let rest ← fsAt cfs i
      .ok (x :: rest)

/-- The outer y-position loop over time indices (clonev.py lines 338-379):
one list of clamped centers per time index. -/
def rows (cfs : List (List ℚ)) (tf : List ℚ) : List ℕ → Except PyErr (List (List ℚ))
  | [] => .ok []
  | i :: is => do
      let fs ← fsAt cfs i
      let purity ← pyGet tf i
      let ys ← ysAt fs purity
      let rest ← rows cfs tf is
      .ok (ys :: rest)

/-- The per-clone sample loop (clonev.py lines 397-419): walking the
frequency series with counter `t`, prepend an emergence sample when the
accumulator is still empty, then append the sample at step `t + 1` reading
the precomputed center `clone_ys[t][clone_idx]`. -/
def sampleLoop (cys : List (List ℚ)) (idx : ℕ) :
    List ℚ → ℕ → List ℚ × List ℚ × List ℚ → Except PyErr (List ℚ × List ℚ × List ℚ)
  | [], _, acc => .ok acc
  | f :: rest, t, (xs, ys, ws) =>
      let acc1 :=
        if xs.length = 0 then
          (xs ++ [(1 - f) * (1 / 2) + (t : ℚ)], ys ++ [(0 : ℚ)], ws ++ [(0 : ℚ)])
        else (xs, ys, ws)
      do
        let row ← pyGet cys t
        let yv ← pyGet row idx
        sampleLoop cys idx rest (t + 1)
          (acc1.1 ++ [(t : ℚ) + 1], acc1.2.1 ++ [yv], acc1.2.2 ++ [f / 2])

/-- The loop over sub-clones (clonev.py lines 393-426): build each clone's
samples, then normalize its times by the number of time intervals (a Python
float division, which raises on zero but is only reached with a non-empty
list when the interval count is positive). -/
def buildClones (cys : List (List ℚ)) (nt1 : ℚ) :
    List (List ℚ) → ℕ → Except PyErr (List Clone)
  | [], _ => .ok []
  | cf :: rest, idx => do
      let acc ← sampleLoop cys idx cf 0 ([], [], [])
      let xs2 ← divAll acc.1 nt1
      let restC ← buildClones cys nt1 rest (idx + 1)
      .ok (Clone.mk (.inr xs2) acc.2.1 acc.2.2 :: restC)

/-- `create_clones` (clonev.py lines 327-428): the whole layout pass.
`freqs[0]` is the tumour-fraction series, `freqs[1:]` the sub-clone series;
the number of time steps is read from the first sub-clone series.  Output is
the aggregate clone followed by one clone per sub-clone series, or the first
Python exception raised. -/
def create_clones (freqs : List (List ℚ)) : Except PyErr (List Clone) := do
  let tumour_freq ← pyGet freqs 0
  let clone_freqs := freqs.tail
  let firstClone ← pyGet clone_freqs 0
  let nt1 := firstClone.length
  let cys ← rows clone_freqs tumour_freq (List.range nt1)
  let clone_all : Clone :=
    ⟨linspace 0 1 (nt1 + 1), List.replicate (nt1 + 1) (0 : ℚ),
      (0 : ℚ) :: tumour_freq.map (fun f => f * (1 / 2))⟩
  let rest ← buildClones cys (nt1 : ℚ) clone_freqs 0
  .ok (clone_all :: rest)

/-- Whether an embedded Python computation returned normally. -/
def exceptOk {α : Type} (e : Except PyErr α) : Bool :=
  match e with
  | .ok _ => true
  | .error _ => false

/-- Transcription of the specification's redistribution weights: weight 0
for the first sub-clone, and `f_k` divided by the sum of all sub-clone
frequencies except the first one for the others.  Stated with total `ℚ`
division; the claims relate it to the fallible division of the source. -/
def specWeight (fs : List ℚ) (k : ℕ) : ℚ :=
  if k = 0 then 0 else fs.getD k 0 / fs.tail.sum

/-- Transcription of the specification's cumulative vertical position: the
running sum, over clones in fixed order up to index `j`, of
`f + spacing · g`. -/
def specCum (fs : List ℚ) (spacing : ℚ) (j : ℕ) : ℚ :=
  (Finset.range (j + 1)).sum (fun k => fs.getD k 0 + spacing * specWeight fs k)

/-- The time-coordinate invariant claimed for every produced clone: each
sample time lies in the unit interval and times are non-decreasing along
the sequence.  A scalar `xs` (the degenerate sub-two-sample `linspace`
result) carries a single time. -/
def timesUnitMono (c : Clone) : Prop :=
  match c.xs with
  | .inl x => 0 ≤ x ∧ x ≤ 1
  | .inr l => (∀ x ∈ l, 0 ≤ x ∧ x ≤ 1) ∧ l.Pairwise (· ≤ ·)

/-- The cubic segment drawn on the top edge between the adjacent samples
`p` (previous) and `q` (current): both control points at the horizontal
midpoint, first control y at the previous top edge, second control y and
endpoint y at the current top edge. -/
def topCurve (p q : ℚ × ℚ × ℚ) : Seg :=
  Seg.curveTo ((q.1 + p.1) / 2, p.2.1 - p.2.2) ((q.1 + p.1) / 2, q.2.1 - q.2.2)
    (q.1, q.2.1 - q.2.2)

/-- The mirrored cubic segment on the bottom edge. -/
def botCurve (p q : ℚ × ℚ × ℚ) : Seg :=
  Seg.curveTo ((q.1 + p.1) / 2, p.2.1 + p.2.2) ((q.1 + p.1) / 2, q.2.1 + q.2.2)
    (q.1, q.2.1 + q.2.2)

/-- The point at which a path operation leaves the pen, when it names one. -/
def segPoint : Seg → Option (ℚ × ℚ)
  | .moveTo p => some p
  | .lineTo p => some p
  | .curveTo _ _ p => some p
  | .closePath => none

theorem exceptBind_ok {α β : Type} (x : Except PyErr α) (f : α → Except PyErr β) (b : β) :
    (x >>= f) = .ok b ↔ ∃ a, x = .ok a ∧ f a = .ok b := by
  cases x with
  | ok a => simp [Bind.bind, Except.bind]
  | error e => simp [Bind.bind, Except.bind]

theorem pyGet_ok_iff {α : Type} {l : List α} {i : ℕ} {a : α} :
    pyGet l i = .ok a ↔ ∃ h : i < l.length, l.get ⟨i, h⟩ = a := by
  unfold pyGet
  split <;> simp_all

theorem pyGet_ok_lt {α : Type} {l : List α} {i : ℕ} {a : α} (h : pyGet l i = .ok a) :
    i < l.length := by
  rcases pyGet_ok_iff.1 h with ⟨hl, _⟩
  exact hl

theorem pyGet_ok_getD {α : Type} {l : List α} {i : ℕ} {a : α} (h : pyGet l i = .ok a)
    (d : α) : l.getD i d = a := by
  rcases pyGet_ok_iff.1 h with ⟨hl, he⟩
  rw [List.getD_eq_getElem?_getD, List.getElem?_eq_getElem hl]
  simpa [List.get_eq_getElem] using he

theorem pyDiv_ok_iff {a b c : ℚ} : pyDiv a b = .ok c ↔ b ≠ 0 ∧ c = a / b := by
  unfold pyDiv
  split <;> simp_all [eq_comm]

theorem divAll_ok {xs : List ℚ} {d : ℚ} {l : List ℚ} (h : divAll xs d = .ok l) :
    l = xs.map (fun x => x / d) ∧ (xs = [] ∨ d ≠ 0) := by
  induction xs generalizing l with
  | nil =>
      simp only [divAll] at h
      injection h with h1
      subst h1
      simp
  | cons x xs ih =>
      rw [divAll] at h
      rcases (exceptBind_ok _ _ _).1 h with ⟨y, hy, h2⟩
      rcases (exceptBind_ok _ _ _).1 h2 with ⟨rest, hrest, h3⟩
      rcases pyDiv_ok_iff.1 hy with ⟨hd, hyv⟩
      rcases ih hrest with ⟨hl, _⟩
      cases h3
      simp [hl, hyv, hd]

theorem zip_getD (l1 l2 : List ℚ) (j : ℕ) (h1 : j < l1.length) (h2 : j < l2.length) :
    (l1.zip l2).getD j (0, 0) = (l1.getD j 0, l2.getD j 0) := by
  induction l1 generalizing l2 j with
  | nil => simp at h1
  | cons a l1 ih =>
      cases l2 with
      | nil => simp at h2
      | cons b l2 =>
          cases j with
          | zero => simp
          | succ j =>
              simp only [List.zip_cons_cons, List.getD_cons_succ]
              exact ih l2 j (by simpa using h1) (by simpa using h2)

theorem getD_tail (l : List ℚ) (k : ℕ) : l.tail.getD k 0 = l.getD (k + 1) 0 := by
  cases l <;> simp

theorem getD_map_div (l : List ℚ) (s : ℚ) (k : ℕ) (hk : k < l.length) :
    (l.map (fun x => x / s)).getD k 0 = l.getD k 0 / s := by
  rw [List.getD_eq_getElem?_getD, List.getD_eq_getElem?_getD, List.getElem?_map,
    List.getElem?_eq_getElem hk]
  simp

theorem rawYs_getD (spacing shift : ℚ) (l : List (ℚ × ℚ)) (c : ℚ) (j : ℕ)
    (hj : j < l.length) :
    (rawYs spacing shift l c).getD j 0 =
      c + (Finset.range (j + 1)).sum
            (fun k => (l.getD k (0, 0)).1 + spacing * (l.getD k (0, 0)).2)
        + shift - 1 / 2 - (l.getD j (0, 0)).1 / 2 := by
  induction l generalizing c j with
  | nil => simp at hj
  | cons p l ih =>
      obtain ⟨f, g⟩ := p
      cases j with
      | zero =>
          simp [rawYs, Finset.sum_range_one]
          ring
      | succ j =>
          have hj' : j < l.length := by simpa using hj
          simp only [rawYs, List.getD_cons_succ]
          rw [Finset.sum_range_succ']
          simp only [List.getD_cons_succ, List.getD_cons_zero]
          rw [ih (c + f + spacing * g) j hj']
          ring

theorem ysLoop_eq_clamp (spacing shift : ℚ) (l : List (ℚ × ℚ)) (c : ℚ) (j : ℕ)
    (hj : j < l.length) :
    (ysLoop spacing shift l c).getD j 0 =
      clampY (l.getD j (0, 0)).1 ((rawYs spacing shift l c).getD j 0) := by
  induction l generalizing c j with
  | nil => simp at hj
  | cons p l ih =>
      obtain ⟨f, g⟩ := p
      cases j with
      | zero => simp [ysLoop, rawYs]
      | succ j =>
          have hj' : j < l.length := by simpa using hj
          simp only [ysLoop, rawYs, List.getD_cons_succ]
          exact ih (c + f + spacing * g) j hj'

theorem zipWeights_length {fs gtail : List ℚ} (hlg : gtail.length = fs.tail.length)
    (hfs : 0 < fs.length) : (fs.zip ((0 : ℚ) :: gtail)).length = fs.length := by
  simp only [List.length_zip, List.length_cons, hlg, List.length_tail]
  omega

theorem weights_getD {fs gtail : List ℚ} (hgt : gtail = fs.tail.map (fun x => x / fs.tail.sum))
    (k : ℕ) (hk : k < fs.length) :
    ((0 : ℚ) :: gtail).getD k 0 = specWeight fs k := by
  cases k with
  | zero => simp [specWeight]
  | succ k =>
      have hk' : k < fs.tail.length := by
        simp only [List.length_tail]
        omega
      simp only [List.getD_cons_succ, hgt, specWeight, Nat.succ_ne_zero, if_false]
      rw [getD_map_div _ _ _ hk', getD_tail]

/-- Claim C1: at any time index, with `fs` the sub-clone frequency vector and
`purity` the tumour fraction, the per-clone vertical center computed before
the clamp guard equals `cum_j + shift - 1/2 - f_j/2`, where `cum_j` is the
running sum of `f + spacing * g` over clones in fixed order,
`spacing = min (purity - sum fs) 0`, `shift = (1 - purity)/2` when
`sum fs ≥ purity` and `(1 - sum fs)/2` otherwise, and the weights `g` are
`0` for the first sub-clone and `f_k / (sum of the other sub-clone
frequencies)` for the rest: the emitted center is exactly that value fed to
the clamp guard. -/
theorem claim1_center_formula (fs : List ℚ) (purity : ℚ) (gtail : List ℚ)
    (hg : divAll fs.tail fs.tail.sum = .ok gtail) (j : ℕ) (hj : j < fs.length) :
    (ysLoop (min (purity - fs.sum) 0)
        (if fs.sum ≥ purity then (1 - purity) * (1 / 2) else (1 - fs.sum) * (1 / 2))
        (fs.zip ((0 : ℚ) :: gtail)) 0).getD j 0 =
      clampY (fs.getD j 0)
        (specCum fs (min (purity - fs.sum) 0) j
          + (if fs.sum ≥ purity then (1 - purity) * (1 / 2) else (1 - fs.sum) * (1 / 2))
          - 1 / 2 - fs.getD j 0 / 2) := by
  rcases divAll_ok hg with ⟨hgt, _⟩
  have hlg : gtail.length = fs.tail.length := by rw [hgt]; simp
  have hlen : (fs.zip ((0 : ℚ) :: gtail)).length = fs.length :=
    zipWeights_length hlg (by omega)
  have hj2 : j < (fs.zip ((0 : ℚ) :: gtail)).length := by rw [hlen]; exact hj
  have hzip : ∀ k, k < fs.length →
      (fs.zip ((0 : ℚ) :: gtail)).getD k (0, 0) = (fs.getD k 0, specWeight fs k) := by
    intro k hk
    rw [zip_getD _ _ k hk (by simp only [List.length_cons, hlg, List.length_tail]; omega),
      weights_getD hgt k hk]
  rw [ysLoop_eq_clamp _ _ _ _ j hj2, rawYs_getD _ _ _ _ j hj2, hzip j hj]
  have hsum : (Finset.range (j + 1)).sum
        (fun k => ((fs.zip ((0 : ℚ) :: gtail)).getD k (0, 0)).1
          + min (purity - fs.sum) 0 * ((fs.zip ((0 : ℚ) :: gtail)).getD k (0, 0)).2)
      = specCum fs (min (purity - fs.sum) 0) j := by
    unfold specCum
    refine Finset.sum_congr rfl (fun k hk => ?_)
    have hkf : k < fs.length := by
      have := Finset.mem_range.1 hk
      omega
    rw [hzip k hkf]
  rw [hsum]
  simp

/-- Concrete instance of C1: two sub-clones with frequencies 1/2 and 1/4
under purity 1; the second clone's emitted center matches the claim's
closed-form cumulative formula. -/
theorem claim1_center_formula_witness :
    divAll ([(1 : ℚ) / 2, 1 / 4] : List ℚ).tail ([(1 : ℚ) / 2, 1 / 4] : List ℚ).tail.sum
        = .ok [1]
    ∧ (1 : ℕ) < 2
    ∧ (ysLoop (min ((1 : ℚ) - [(1 : ℚ) / 2, 1 / 4].sum) 0)
          (if [(1 : ℚ) / 2, 1 / 4].sum ≥ (1 : ℚ) then (1 - (1 : ℚ)) * (1 / 2)
            else (1 - [(1 : ℚ) / 2, 1 / 4].sum) * (1 / 2))
          ([(1 : ℚ) / 2, 1 / 4].zip ((0 : ℚ) :: [1])) 0).getD 1 0 =
        clampY ([(1 : ℚ) / 2, 1 / 4].getD 1 0)
          (specCum [(1 : ℚ) / 2, 1 / 4] (min ((1 : ℚ) - [(1 : ℚ) / 2, 1 / 4].sum) 0) 1
            + (if [(1 : ℚ) / 2, 1 / 4].sum ≥ (1 : ℚ) then (1 - (1 : ℚ)) * (1 / 2)
                else (1 - [(1 : ℚ) / 2, 1 / 4].sum) * (1 / 2))
            - 1 / 2 - [(1 : ℚ) / 2, 1 / 4].getD 1 0 / 2) :=
  ⟨by with_unfolding_all decide, by decide,
    claim1_center_formula [(1 : ℚ) / 2, 1 / 4] 1 [1] (by with_unfolding_all decide) 1
      (by decide)⟩

/-- Claim C5: in the overlap resolution, whenever the y-position pass
returns normally, each emitted center is the pre-clamp center reset to
exactly 0 when that center minus the clone's half-width `f/2` falls below
−1/2, and the unaltered pre-clamp center otherwise; the guard is a silent
clamp (the returned value is an `ok`, never an error), and no other
condition alters the center. -/
theorem claim5_clamp_guard (fs : List ℚ) (purity : ℚ) (gtail ys : List ℚ)
    (hg : divAll fs.tail fs.tail.sum = .ok gtail)
    (hys : ysAt fs purity = .ok ys) (j : ℕ) (hj : j < fs.length) :
    ys.getD j 0 =
      (if (rawYs (min (purity - fs.sum) 0)
              (if fs.sum ≥ purity then (1 - purity) * (1 / 2) else (1 - fs.sum) * (1 / 2))
              (fs.zip ((0 : ℚ) :: gtail)) 0).getD j 0 - fs.getD j 0 / 2 < -(1 / 2)
        then (0 : ℚ)
        else (rawYs (min (purity - fs.sum) 0)
              (if fs.sum ≥ purity then (1 - purity) * (1 / 2) else (1 - fs.sum) * (1 / 2))
              (fs.zip ((0 : ℚ) :: gtail)) 0).getD j 0) := by
  rw [ysAt] at hys
  rcases (exceptBind_ok _ _ _).1 hys with ⟨g2, hg2, hok⟩
  rw [hg] at hg2
  injection hg2 with hg2
  subst hg2
  injection hok with hok
  subst hok
  rcases divAll_ok hg with ⟨hgt, _⟩
  have hlg : gtail.length = fs.tail.length := by rw [hgt]; simp
  have hj2 : j < (fs.zip ((0 : ℚ) :: gtail)).length := by
    rw [zipWeights_length hlg (by omega)]
    exact hj
  rw [ysLoop_eq_clamp _ _ _ _ j hj2, clampY]
  rw [zip_getD _ _ j hj (by simp only [List.length_cons, hlg, List.length_tail]; omega)]

/-- Concrete instance of C5: frequencies `[0, 1, 1]` under purity 0 drive
the middle clone's pre-clamp center to −1/2, whose lower edge −1 falls
below −1/2, so the emitted center is reset to 0. -/
theorem claim5_clamp_guard_witness :
    divAll ([(0 : ℚ), 1, 1] : List ℚ).tail ([(0 : ℚ), 1, 1] : List ℚ).tail.sum
        = .ok [1 / 2, 1 / 2]
    ∧ ysAt [(0 : ℚ), 1, 1] 0 = .ok [0, 0, 0]
    ∧ (1 : ℕ) < 3
    ∧ ([(0 : ℚ), 0, 0] : List ℚ).getD 1 0 =
      (if (rawYs (min ((0 : ℚ) - [(0 : ℚ), 1, 1].sum) 0)
              (if [(0 : ℚ), 1, 1].sum ≥ (0 : ℚ) then (1 - (0 : ℚ)) * (1 / 2)
                else (1 - [(0 : ℚ), 1, 1].sum) * (1 / 2))
              ([(0 : ℚ), 1, 1].zip ((0 : ℚ) :: [1 / 2, 1 / 2])) 0).getD 1 0
            - [(0 : ℚ), 1, 1].getD 1 0 / 2 < -(1 / 2)
        then (0 : ℚ)
        else (rawYs (min ((0 : ℚ) - [(0 : ℚ), 1, 1].sum) 0)
              (if [(0 : ℚ), 1, 1].sum ≥ (0 : ℚ) then (1 - (0 : ℚ)) * (1 / 2)
                else (1 - [(0 : ℚ), 1, 1].sum) * (1 / 2))
              ([(0 : ℚ), 1, 1].zip ((0 : ℚ) :: [1 / 2, 1 / 2])) 0).getD 1 0) :=
  ⟨by with_unfolding_all decide, by with_unfolding_all decide, by decide,
    claim5_clamp_guard [(0 : ℚ), 1, 1] 0 [1 / 2, 1 / 2] [0, 0, 0]
      (by with_unfolding_all decide) (by with_unfolding_all decide) 1 (by decide)⟩

theorem map_range_getD (f : ℕ → ℚ) (n i : ℕ) (h : i < n) :
    ((List.range n).map f).getD i 0 = f i := by
  rw [List.getD_eq_getElem?_getD, List.getElem?_map, List.getElem?_range h]
  simp

/-- Claim C10: for `n ≥ 2`, `linspace a b n` returns exactly `n` evenly
spaced values from `a` to `b` inclusive, with all consecutive differences
equal to `(b - a)/(n - 1)`; for `n < 2` it returns the bare scalar `b`;
`linspace 0 1 5` is exactly `[0, 1/4, 1/2, 3/4, 1]` and `linspace a b 1`
is the scalar `b`. -/
theorem claim10_linspace (a b : ℚ) (n : ℕ) (h2 : 2 ≤ n) :
    (∃ l, linspace a b n = Sum.inr l ∧ l.length = n
      ∧ l.getD 0 0 = a ∧ l.getD (n - 1) 0 = b
      ∧ ∀ i, i + 1 < n → l.getD (i + 1) 0 - l.getD i 0 = (b - a) / ((n : ℚ) - 1))
    ∧ (∀ m, m < 2 → linspace a b m = Sum.inl b)
    ∧ linspace 0 1 5 = Sum.inr [0, 1 / 4, 1 / 2, 3 / 4, 1]
    ∧ linspace a b 1 = Sum.inl b := by
  have hne : ((n : ℚ) - 1) ≠ 0 := by
    have hc : (2 : ℚ) ≤ (n : ℚ) := by exact_mod_cast h2
    linarith
  refine ⟨⟨(List.range n).map (fun i : ℕ => (b - a) / ((n : ℚ) - 1) * (i : ℚ) + a),
      ?_, by simp, ?_, ?_, ?_⟩, ?_, ?_, ?_⟩
  · rw [linspace, if_neg (by omega)]
  · rw [map_range_getD _ _ _ (by omega)]
    simp
  · rw [map_range_getD _ _ _ (by omega)]
    rw [Nat.cast_sub (by omega : 1 ≤ n)]
    push_cast
    field_simp
  · intro i hi
    rw [map_range_getD _ _ _ hi, map_range_getD _ _ _ (by omega)]
    push_cast
    ring
  · intro m hm
    rw [linspace, if_pos hm]
  · with_unfolding_all decide
  · rw [linspace]
    simp

/-- Concrete instance of C10 at `a = 0`, `b = 1`, `n = 5`. -/
theorem claim10_linspace_witness :
    (2 : ℕ) ≤ 5
    ∧ ((∃ l, linspace 0 1 5 = Sum.inr l ∧ l.length = 5
        ∧ l.getD 0 0 = 0 ∧ l.getD (5 - 1) 0 = 1
        ∧ ∀ i, i + 1 < 5 → l.getD (i + 1) 0 - l.getD i 0 = ((1 : ℚ) - 0) / ((5 : ℚ) - 1))
      ∧ (∀ m, m < 2 → linspace (0 : ℚ) 1 m = Sum.inl 1)
      ∧ linspace 0 1 5 = Sum.inr [0, 1 / 4, 1 / 2, 3 / 4, 1]
      ∧ linspace (0 : ℚ) (1 : ℚ) 1 = Sum.inl 1) :=
  ⟨by decide, claim10_linspace 0 1 5 (by decide)⟩

/-- Claim C3: a structurally valid frequency matrix — equal series lengths,
two time points, all frequencies in `[0, 1]`, two sub-clone series with
every sub-clone after the first at frequency 0 — drives the weight
normalization `f / sum(fs[1:])` into an unguarded division by zero, so the
layout raises `ZeroDivisionError` rather than returning a result. -/
theorem claim3_division_by_zero :
    create_clones [[(1 : ℚ), 1], [1 / 2, 1 / 2], [0, 0]] = .error .zeroDivisionError
    ∧ (∀ s ∈ [[(1 : ℚ), 1], [1 / 2, 1 / 2], [0, 0]], s.length = 2)
    ∧ (∀ s ∈ [[(1 : ℚ), 1], [1 / 2, 1 / 2], [0, 0]], ∀ f ∈ s, 0 ≤ f ∧ f ≤ 1)
    ∧ ([[(1 : ℚ), 1], [1 / 2, 1 / 2], [0, 0]] : List (List ℚ)).tail.length = 2
    ∧ (2 : ℕ) ≤ 2 := by
  refine ⟨by with_unfolding_all decide, by decide, by with_unfolding_all decide,
    by decide, by decide⟩

/-- Counterexample to C2 as stated: an input with a single time point (fewer
than 2) is laid out successfully instead of failing with `EmptyInput`, and
an input whose tumour-fraction series is longer than the sub-clone series
(differing lengths) is also laid out successfully instead of failing with
`ShapeMismatch`. -/
theorem claim2_validation_counterexample :
    exceptOk (create_clones [[(1 : ℚ)], [1 / 2]]) = true
    ∧ (([[(1 : ℚ)], [1 / 2]] : List (List ℚ)).getD 0 []).length = 1
    ∧ exceptOk (create_clones [[(1 : ℚ), 1, 1], [1 / 2, 1 / 2]]) = true
    ∧ ¬ (([[(1 : ℚ), 1, 1], [1 / 2, 1 / 2]] : List (List ℚ)).getD 0 []).length
        = (([[(1 : ℚ), 1, 1], [1 / 2, 1 / 2]] : List (List ℚ)).getD 1 []).length := by
  refine ⟨by with_unfolding_all decide, by decide, by with_unfolding_all decide,
    by with_unfolding_all decide⟩

/-- Claim C2 as the code actually behaves: structural problems surface as
generic Python index errors, not named `ShapeMismatch`/`EmptyInput`
failures.  An empty input, or an input with no sub-clone series, raises an
index error at the boundary before any geometry is built; a sub-clone
series shorter or longer than the first sub-clone series raises an index
error during layout; and since an exception aborts `create_clones`, an
error result carries no partial output. -/
theorem claim2_validation_amended :
    create_clones ([] : List (List ℚ)) = .error .indexError
    ∧ (∀ tf : List ℚ, create_clones [tf] = .error .indexError)
    ∧ create_clones [[(1 : ℚ), 1], [1 / 2, 1 / 2], [1 / 2]] = .error .indexError
    ∧ create_clones [[(1 : ℚ), 1], [1 / 2], [1 / 2, 1 / 2]] = .error .indexError := by
  refine ⟨by with_unfolding_all decide, ?_, by with_unfolding_all decide,
    by with_unfolding_all decide⟩
  intro tf
  simp [create_clones, pyGet, Bind.bind, Except.bind]

/-- Counterexample to C4 as stated: a clone whose first observed frequency
is 1 (a legal frequency) gets emergence time `(1 - 1) * 0.5 + 0 = 0`, which
is not strictly between the preceding time step 0 and the first observation;
shown both on the raw sample loop (pre-normalization) and on the full
layout of the matrix `[[1], [1]]`. -/
theorem claim4_emergence_counterexample :
    sampleLoop [[0]] 0 [1] 0 ([], [], []) = .ok ([0, 1], [0, 0], [0, 1 / 2])
    ∧ create_clones [[(1 : ℚ)], [1]] =
        .ok [Clone.mk (Sum.inr [0, 1]) [0, 0] [0, 1 / 2],
          Clone.mk (Sum.inr [0, 1]) [0, 0] [0, 1 / 2]]
    ∧ ¬ ((0 : ℚ) < 0) := by
  refine ⟨by with_unfolding_all decide, by with_unfolding_all decide, by simp⟩

/-- Claim C8: the contour of a single-sample clone is the minimal closed
3-segment shape: the opening segment at the top edge, the straight top-to-
bottom connector, and the closing segment. -/
theorem claim8_single_sample (x y w : ℚ) :
    (Clone.mk (Sum.inr [x]) [y] [w]).path =
      .ok [Seg.moveTo (x, y - w), Seg.lineTo (x, y + w), Seg.closePath]
    ∧ ([Seg.moveTo (x, y - w), Seg.lineTo (x, y + w), Seg.closePath] : List Seg).length
        = 3 := by
  constructor
  · rfl
  · rfl

theorem sampleLoop_ok_append (cys : List (List ℚ)) (idx : ℕ) (cf : List ℚ) :
    ∀ (t : ℕ) (xs0 ys0 ws0 : List ℚ) (r : List ℚ × List ℚ × List ℚ),
      xs0 ≠ [] → sampleLoop cys idx cf t (xs0, ys0, ws0) = .ok r →
      r.1 = xs0 ++ (List.range cf.length).map (fun k : ℕ => (t : ℚ) + (k : ℚ) + 1)
        ∧ (∃ l2, r.2.1 = ys0 ++ l2) ∧ (∃ l3, r.2.2 = ws0 ++ l3) := by
  induction cf with
  | nil =>
      intro t xs0 ys0 ws0 r hne h
      simp only [sampleLoop] at h
      injection h with h
      subst h
      exact ⟨by simp, ⟨[], by simp⟩, ⟨[], by simp⟩⟩
  | cons f rest ih =>
      intro t xs0 ys0 ws0 r hne h
      simp only [sampleLoop] at h
      rw [if_neg (by simpa using hne)] at h
      rcases (exceptBind_ok _ _ _).1 h with ⟨row, hrow, h2⟩
      rcases (exceptBind_ok _ _ _).1 h2 with ⟨yv, hyv, h3⟩
      rcases ih (t + 1) (xs0 ++ [(t : ℚ) + 1]) (ys0 ++ [yv]) (ws0 ++ [f / 2]) r
          (by simp) h3 with ⟨hxs, ⟨l2, hl2⟩, ⟨l3, hl3⟩⟩
      refine ⟨?_, ⟨yv :: l2, by simpa using hl2⟩, ⟨f / 2 :: l3, by simpa using hl3⟩⟩
      rw [hxs, List.append_assoc]
      congr 1
      rw [List.length_cons, List.range_succ_eq_map, List.map_cons, List.map_map]
      simp only [List.singleton_append, Nat.cast_zero, List.cons.injEq]
      constructor
      · ring
      · refine List.map_congr_left (fun k hk => ?_)
        simp only [Function.comp]
        push_cast
        ring

theorem sampleLoop_ok_first (cys : List (List ℚ)) (idx : ℕ) (f : ℚ) (rest : List ℚ)
    (r : List ℚ × List ℚ × List ℚ)
    (h : sampleLoop cys idx (f :: rest) 0 ([], [], []) = .ok r) :
    r.1 = ((1 - f) * (1 / 2))
        :: (List.range (rest.length + 1)).map (fun k : ℕ => (k : ℚ) + 1)
    ∧ (∃ l2, r.2.1 = (0 : ℚ) :: l2) ∧ (∃ l3, r.2.2 = (0 : ℚ) :: l3) := by
  simp only [sampleLoop, List.length_nil, if_pos, List.nil_append] at h
  rcases (exceptBind_ok _ _ _).1 h with ⟨row, hrow, h2⟩
  rcases (exceptBind_ok _ _ _).1 h2 with ⟨yv, hyv, h3⟩
  rcases sampleLoop_ok_append cys idx rest 1
      ([(1 - f) * (1 / 2) + ((0 : ℕ) : ℚ), ((0 : ℕ) : ℚ) + 1] : List ℚ) [(0 : ℚ), yv]
      [(0 : ℚ), f / 2] r (by simp) (by simpa using h3) with ⟨hxs, ⟨l2, hl2⟩, ⟨l3, hl3⟩⟩
  refine ⟨?_, ⟨yv :: l2, by simpa using hl2⟩, ⟨f / 2 :: l3, by simpa using hl3⟩⟩
  rw [hxs]
  simp only [Nat.cast_zero, add_zero, zero_add, List.cons_append, List.nil_append,
    List.cons.injEq, true_and]
  rw [List.range_succ_eq_map, List.map_cons, List.map_map]
  simp only [Nat.cast_zero, zero_add, List.cons.injEq, true_and]
  refine List.map_congr_left (fun k hk => ?_)
  simp only [Function.comp]
  push_cast
  ring

theorem sampleLoop_ok_bound (cys : List (List ℚ)) (idx : ℕ) (cf : List ℚ) :
    ∀ (t : ℕ) (acc : List ℚ × List ℚ × List ℚ) (r : List ℚ × List ℚ × List ℚ),
      sampleLoop cys idx cf t acc = .ok r → cf = [] ∨ t + cf.length ≤ cys.length := by
  induction cf with
  | nil => intro t acc r _; exact .inl rfl
  | cons f rest ih =>
      intro t acc r h
      obtain ⟨xs0, ys0, ws0⟩ := acc
      simp only [sampleLoop] at h
      rcases (exceptBind_ok _ _ _).1 h with ⟨row, hrow, h2⟩
      rcases (exceptBind_ok _ _ _).1 h2 with ⟨yv, hyv, h3⟩
      have ht : t < cys.length := pyGet_ok_lt hrow
      right
      rcases ih (t + 1) _ r h3 with hnil | hle
      · subst hnil
        simpa using ht
      · simp only [List.length_cons]
        omega

/-- Claim C4 as the code actually behaves: for a sub-clone whose series
starts with frequency `f` (the loop counter starts at `t = 0`, so the first
sample is always emitted at the first index), the first emitted sample is an
emergence sample with pre-normalization time `(1 - f) * 0.5 + 0`, vertical
center 0 and half-width 0; for frequencies in `[0, 1]` this time lies in
the half-open interval `[t, t + 1)`: it is strictly between `t` and `t + 1`
exactly when `f < 1`, and collapses onto the preceding time step `t` when
`f = 1`.  In particular, for the series `[0.2, 0.2, 0.2]` the emergence
time is `0.4` (see the witness). -/
theorem claim4_emergence_amended (cys : List (List ℚ)) (idx : ℕ) (f : ℚ)
    (rest : List ℚ) (r : List ℚ × List ℚ × List ℚ)
    (h : sampleLoop cys idx (f :: rest) 0 ([], [], []) = .ok r)
    (h0 : 0 ≤ f) (h1 : f ≤ 1) :
    r.1.headD 9 = (1 - f) * (1 / 2)
    ∧ r.2.1.headD 9 = 0
    ∧ r.2.2.headD 9 = 0
    ∧ (0 : ℚ) ≤ (1 - f) * (1 / 2)
    ∧ (1 - f) * (1 / 2) < 1
    ∧ (f < 1 → 0 < (1 - f) * (1 / 2))
    ∧ (f = 1 → (1 - f) * (1 / 2) = 0) := by
  rcases sampleLoop_ok_first cys idx f rest r h with ⟨hxs, ⟨l2, hl2⟩, ⟨l3, hl3⟩⟩
  refine ⟨by rw [hxs]; rfl, by rw [hl2]; rfl, by rw [hl3]; rfl, by linarith, by linarith,
    fun hf => by linarith, fun hf => by rw [hf]; ring⟩

/-- Concrete instance of the amended C4: the single sub-clone with series
`[0.2, 0.2, 0.2]` (purity 1 everywhere gives precomputed centers 0); the
emergence sample has pre-normalization time `(1 - 0.2) * 0.5 = 0.4` and
half-width 0. -/
theorem claim4_emergence_amended_witness :
    sampleLoop [[0], [0], [0]] 0 [1 / 5, 1 / 5, 1 / 5] 0 ([], [], []) =
        .ok ([2 / 5, 1, 2, 3], [0, 0, 0, 0], [0, 1 / 10, 1 / 10, 1 / 10])
    ∧ (0 : ℚ) ≤ 1 / 5
    ∧ (1 : ℚ) / 5 ≤ 1
    ∧ (([2 / 5, 1, 2, 3] : List ℚ).headD 9 = (1 - 1 / 5) * (1 / 2)
      ∧ ([0, 0, 0, 0] : List ℚ).headD 9 = 0
      ∧ ([0, 1 / 10, 1 / 10, 1 / 10] : List ℚ).headD 9 = 0
      ∧ (0 : ℚ) ≤ (1 - 1 / 5) * (1 / 2)
      ∧ (1 - (1 : ℚ) / 5) * (1 / 2) < 1
      ∧ ((1 : ℚ) / 5 < 1 → 0 < (1 - (1 : ℚ) / 5) * (1 / 2))
      ∧ ((1 : ℚ) / 5 = 1 → (1 - (1 : ℚ) / 5) * (1 / 2) = 0))
    ∧ (1 - (1 : ℚ) / 5) * (1 / 2) = 2 / 5 :=
  ⟨by with_unfolding_all decide, by with_unfolding_all decide, by with_unfolding_all decide,
    claim4_emergence_amended [[0], [0], [0]] 0 (1 / 5) [1 / 5, 1 / 5]
      ([2 / 5, 1, 2, 3], [0, 0, 0, 0], [0, 1 / 10, 1 / 10, 1 / 10])
      (by with_unfolding_all decide) (by with_unfolding_all decide)
      (by with_unfolding_all decide),
    by with_unfolding_all decide⟩

theorem create_clones_ok {freqs : List (List ℚ)} {cs : List Clone}
    (h : create_clones freqs = .ok cs) :
    ∃ tf fc cys rest,
      pyGet freqs 0 = .ok tf
      ∧ pyGet freqs.tail 0 = .ok fc
      ∧ rows freqs.tail tf (List.range fc.length) = .ok cys
      ∧ buildClones cys (fc.length : ℚ) freqs.tail 0 = .ok rest
      ∧ cs = Clone.mk (linspace 0 1 (fc.length + 1))
            (List.replicate (fc.length + 1) (0 : ℚ))
            ((0 : ℚ) :: tf.map (fun f => f * (1 / 2))) :: rest := by
  simp only [create_clones] at h
  rcases (exceptBind_ok _ _ _).1 h with ⟨tf, htf, h2⟩
  rcases (exceptBind_ok _ _ _).1 h2 with ⟨fc, hfc, h3⟩
  rcases (exceptBind_ok _ _ _).1 h3 with ⟨cys, hcys, h4⟩
  rcases (exceptBind_ok _ _ _).1 h4 with ⟨rest, hrest, h5⟩
  injection h5 with h5
  exact ⟨tf, fc, cys, rest, htf, hfc, hcys, hrest, h5.symm⟩

theorem rows_ok_len {cfs : List (List ℚ)} {tf : List ℚ} :
    ∀ {is : List ℕ} {rss : List (List ℚ)},
      rows cfs tf is = .ok rss → rss.length = is.length := by
  intro is
  induction is with
  | nil =>
      intro rss h
      simp only [rows] at h
      injection h with h
      subst h
      rfl
  | cons i is ih =>
      intro rss h
      simp only [rows] at h
      rcases (exceptBind_ok _ _ _).1 h with ⟨fs, _, h2⟩
      rcases (exceptBind_ok _ _ _).1 h2 with ⟨p, _, h3⟩
      rcases (exceptBind_ok _ _ _).1 h3 with ⟨ys, _, h4⟩
      rcases (exceptBind_ok _ _ _).1 h4 with ⟨rest, hrest, h5⟩
      injection h5 with h5
      subst h5
      simp [ih hrest]

theorem linspace01_mono (n : ℕ) (ys ws : List ℚ) :
    timesUnitMono (Clone.mk (linspace 0 1 n) ys ws) := by
  by_cases h : n < 2
  · simp [timesUnitMono, linspace, if_pos h]
  · have h2 : 2 ≤ n := by omega
    have hd : (0 : ℚ) < (n : ℚ) - 1 := by
      have hc : (2 : ℚ) ≤ (n : ℚ) := by exact_mod_cast h2
      linarith
    simp only [timesUnitMono, linspace, if_neg h]
    constructor
    · intro x hx
      rcases List.mem_map.1 hx with ⟨i, hi, rfl⟩
      have hin : i < n := List.mem_range.1 hi
      have hiq : (i : ℚ) ≤ (n : ℚ) - 1 := by
        have : (i : ℚ) + 1 ≤ (n : ℚ) := by exact_mod_cast hin
        linarith
      constructor
      · positivity
      · rw [sub_zero, add_zero, div_mul_eq_mul_div, div_le_one hd]
        linarith
    · refine List.Pairwise.map _ (fun a b hab => ?_) (List.pairwise_lt_range n)
      have hq : (a : ℚ) ≤ (b : ℚ) := by exact_mod_cast hab.le
      have hnn : 0 ≤ (1 - 0) / ((n : ℚ) - 1) := by positivity
      nlinarith

theorem normTimes_mono (N : ℕ) (hN : 0 < N) (f : ℚ) (L : ℕ) (hf0 : 0 ≤ f) (hf1 : f ≤ 1)
    (hL : L + 1 ≤ N) :
    (∀ x ∈ (((1 - f) * (1 / 2))
        :: (List.range (L + 1)).map (fun k : ℕ => (k : ℚ) + 1)).map
          (fun x => x / (N : ℚ)), 0 ≤ x ∧ x ≤ 1)
    ∧ ((((1 - f) * (1 / 2))
        :: (List.range (L + 1)).map (fun k : ℕ => (k : ℚ) + 1)).map
          (fun x => x / (N : ℚ))).Pairwise (· ≤ ·) := by
  have hNq : (1 : ℚ) ≤ (N : ℚ) := by exact_mod_cast hN
  have hNp : (0 : ℚ) < (N : ℚ) := by exact_mod_cast hN
  have he0 : 0 ≤ (1 - f) * (1 / 2) := by nlinarith
  have he1 : (1 - f) * (1 / 2) ≤ 1 := by nlinarith
  simp only [List.map_cons, List.map_map]
  constructor
  · intro x hx
    rcases List.mem_cons.1 hx with rfl | hx2
    · exact ⟨by positivity, by rw [div_le_one hNp]; linarith⟩
    · rcases List.mem_map.1 hx2 with ⟨k, hk, rfl⟩
      have hkL : k < L + 1 := List.mem_range.1 hk
      have hkq : (k : ℚ) + 1 ≤ (N : ℚ) := by exact_mod_cast (by omega : k + 1 ≤ N)
      simp only [Function.comp]
      constructor
      · positivity
      · rw [div_le_one hNp]
        linarith
  · refine List.Pairwise.cons (fun b hb => ?_) ?_
    · rcases List.mem_map.1 hb with ⟨k, hk, rfl⟩
      simp only [Function.comp]
      have : (1 - f) * (1 / 2) ≤ (k : ℚ) + 1 := by
        have : (0 : ℚ) ≤ (k : ℚ) := by positivity
        nlinarith
      gcongr
    · refine List.Pairwise.map _ (fun a b hab => ?_) (List.pairwise_lt_range _)
      simp only [Function.comp]
      have hq : (a : ℚ) ≤ (b : ℚ) := by exact_mod_cast hab.le
      gcongr

theorem buildClones_times (cys : List (List ℚ)) (cfs : List (List ℚ)) :
    ∀ (idx : ℕ) (cs : List Clone),
      buildClones cys (cys.length : ℚ) cfs idx = .ok cs →
      (∀ cf ∈ cfs, ∀ f ∈ cf, 0 ≤ f ∧ f ≤ 1) →
      ∀ c ∈ cs, timesUnitMono c := by
  induction cfs with
  | nil =>
      intro idx cs h _ c hc
      simp only [buildClones] at h
      injection h with h
      subst h
      simp at hc
  | cons cf rest ih =>
      intro idx cs h hb c hc
      simp only [buildClones] at h
      rcases (exceptBind_ok _ _ _).1 h with ⟨acc, hacc, h2⟩
      rcases (exceptBind_ok _ _ _).1 h2 with ⟨xs2, hxs2, h3⟩
      rcases (exceptBind_ok _ _ _).1 h3 with ⟨restC, hrestC, h4⟩
      injection h4 with h4
      subst h4
      rcases List.mem_cons.1 hc with rfl | hc2
      · cases cf with
        | nil =>
            simp only [sampleLoop] at hacc
            injection hacc with hacc
            subst hacc
            simp only [divAll] at hxs2
            injection hxs2 with hxs2
            subst hxs2
            simp [timesUnitMono]
        | cons f cft =>
            rcases sampleLoop_ok_first cys idx f cft acc hacc with ⟨hxs, _, _⟩
            rcases divAll_ok hxs2 with ⟨hmap, hnz⟩
            have hNne : (cys.length : ℚ) ≠ 0 := by
              rcases hnz with h' | h'
              · rw [hxs] at h'
                simp at h'
              · exact h'
            have hNpos : 0 < cys.length :=
              Nat.pos_of_ne_zero (by exact_mod_cast hNne)
            have hbound : cft.length + 1 ≤ cys.length := by
              rcases sampleLoop_ok_bound cys idx (f :: cft) 0 _ acc hacc with h' | h'
              · simp at h'
              · simpa [Nat.add_comm] using h'
            have hf : 0 ≤ f ∧ f ≤ 1 :=
              hb _ (List.mem_cons_self _ _) f (List.mem_cons_self _ _)
            rcases normTimes_mono cys.length hNpos f cft.length hf.1 hf.2 hbound
              with ⟨hmem, hpw⟩
            rw [hmap, hxs]
            exact ⟨hmem, hpw⟩
      · exact ih (idx + 1) restC hrestC
          (fun cf' h' f' hf' => hb cf' (List.mem_cons_of_mem _ h') f' hf') c hc2

/-- Claim C6: for a valid frequency matrix (equal-length series with all
frequencies in `[0, 1]`), whenever the layout returns normally, every
produced clone's sample times — the aggregate clone 0 included — lie in
`[0, 1]` after the final normalization by the number of time intervals, and
are non-decreasing along each clone's sample sequence. -/
theorem claim6_times_normalized (freqs : List (List ℚ)) (cs : List Clone)
    (hb : ∀ s ∈ freqs, ∀ f ∈ s, 0 ≤ f ∧ f ≤ 1)
    (hlen : ∀ s ∈ freqs, s.length = (freqs.headD []).length)
    (h : create_clones freqs = .ok cs) :
    ∀ c ∈ cs, timesUnitMono c := by
  rcases create_clones_ok h with ⟨tf, fc, cys, rest, htf, hfc, hcys, hrest, hcs⟩
  subst hcs
  intro c hc
  rcases List.mem_cons.1 hc with rfl | hc2
  · exact linspace01_mono _ _ _
  · have hcyslen : cys.length = fc.length := by
      rw [rows_ok_len hcys]
      simp
    have hrest' : buildClones cys (cys.length : ℚ) freqs.tail 0 = .ok rest := by
      rw [hcyslen]
      exact hrest
    exact buildClones_times cys freqs.tail 0 rest hrest'
      (fun cf hcf f hfm => hb cf (List.mem_of_mem_tail hcf) f hfm) c hc2

/-- Concrete instance of C6: the matrix `[[1], [1/2]]` is laid out into two
clones whose times are `[0, 1]` and `[1/4, 1]`, all within the unit
interval and non-decreasing. -/
theorem claim6_times_normalized_witness :
    (∀ s ∈ [[(1 : ℚ)], [1 / 2]], ∀ f ∈ s, 0 ≤ f ∧ f ≤ 1)
    ∧ (∀ s ∈ [[(1 : ℚ)], [1 / 2]],
        s.length = (([[(1 : ℚ)], [1 / 2]] : List (List ℚ)).headD []).length)
    ∧ create_clones [[(1 : ℚ)], [1 / 2]] =
        .ok [Clone.mk (Sum.inr [0, 1]) [0, 0] [0, 1 / 2],
          Clone.mk (Sum.inr [1 / 4, 1]) [0, 0] [0, 1 / 4]]
    ∧ ∀ c ∈ [Clone.mk (Sum.inr [(0 : ℚ), 1]) [0, 0] [0, 1 / 2],
          Clone.mk (Sum.inr [(1 : ℚ) / 4, 1]) [0, 0] [0, 1 / 4]], timesUnitMono c :=
  ⟨by with_unfolding_all decide, by decide, by with_unfolding_all decide,
    claim6_times_normalized [[(1 : ℚ)], [1 / 2]] _ (by with_unfolding_all decide)
      (by decide) (by with_unfolding_all decide)⟩

/-- Claim C9: whenever the layout returns normally on an input with at least
one time point, the first produced clone (the aggregate tumour-fraction
band) starts with an implicit sample at time 0, has vertical center exactly
0 at every sample, and its half-width list is 0 followed by frequency/2 at
each observed time index; no stacking or offset is ever applied to it. -/
theorem claim9_clone_zero (freqs : List (List ℚ)) (cs : List Clone)
    (h : create_clones freqs = .ok cs) (hT : 1 ≤ (freqs.tail.headD []).length) :
    ∃ c0 rest xsl, cs = c0 :: rest
      ∧ c0.xs = Sum.inr xsl
      ∧ xsl.headD 9 = 0
      ∧ (∀ y ∈ c0.ys, y = 0)
      ∧ c0.ws = (0 : ℚ) :: (freqs.headD []).map (fun f => f / 2)
      ∧ c0.ws.headD 9 = 0
      ∧ c0.ys.length = (freqs.tail.headD []).length + 1 := by
  rcases create_clones_ok h with ⟨tf, fc, cys, rest, htf, hfc, hcys, hrest, hcs⟩
  have htf' : freqs.headD [] = tf := by
    have hg := pyGet_ok_getD htf ([] : List ℚ)
    cases freqs <;> simp_all
  have hfc' : freqs.tail.headD [] = fc := by
    have hg := pyGet_ok_getD hfc ([] : List ℚ)
    cases hx : freqs.tail <;> simp_all
  have hN : 1 ≤ fc.length := by rw [← hfc']; exact hT
  refine ⟨_, rest,
    (List.range (fc.length + 1)).map
      (fun i : ℕ => ((1 : ℚ) - 0) / (((fc.length + 1 : ℕ) : ℚ) - 1) * (i : ℚ) + 0),
    hcs, ?_, ?_, ?_, ?_, by rfl, ?_⟩
  · simp only [linspace, if_neg (by omega : ¬fc.length + 1 < 2)]
  · have hcons : List.range (fc.length + 1) = 0 :: (List.range fc.length).map Nat.succ :=
      List.range_succ_eq_map fc.length
    rw [hcons]
    simp
  · intro y hy
    exact List.eq_of_mem_replicate hy
  · rw [htf']
    refine congrArg (List.cons 0) (List.map_congr_left (fun a ha => ?_))
    ring
  · rw [hfc']
    simp

/-- Concrete instance of C9: on `[[1], [1/2]]` the first produced clone has
times `[0, 1]`, centers all 0, and half-widths `[0, 1/2]`. -/
theorem claim9_clone_zero_witness :
    create_clones [[(1 : ℚ)], [1 / 2]] =
        .ok [Clone.mk (Sum.inr [0, 1]) [0, 0] [0, 1 / 2],
          Clone.mk (Sum.inr [1 / 4, 1]) [0, 0] [0, 1 / 4]]
    ∧ 1 ≤ (([[(1 : ℚ)], [1 / 2]] : List (List ℚ)).tail.headD []).length
    ∧ (∃ c0 rest xsl,
        ([Clone.mk (Sum.inr [(0 : ℚ), 1]) [0, 0] [0, 1 / 2],
          Clone.mk (Sum.inr [(1 : ℚ) / 4, 1]) [0, 0] [0, 1 / 4]] : List Clone) = c0 :: rest
        ∧ c0.xs = Sum.inr xsl
        ∧ xsl.headD 9 = 0
        ∧ (∀ y ∈ c0.ys, y = 0)
        ∧ c0.ws = (0 : ℚ)
            :: (([[(1 : ℚ)], [1 / 2]] : List (List ℚ)).headD []).map (fun f => f / 2)
        ∧ c0.ws.headD 9 = 0
        ∧ c0.ys.length = (([[(1 : ℚ)], [1 / 2]] : List (List ℚ)).tail.headD []).length + 1) :=
  ⟨by with_unfolding_all decide, by decide,
    claim9_clone_zero [[(1 : ℚ)], [1 / 2]] _ (by with_unfolding_all decide) (by decide)⟩

theorem pyGet_cons_zero {α : Type} (a : α) (l : List α) : pyGet (a :: l) 0 = .ok a := by
  simp [pyGet]

theorem getLast?_cons_eq {α : Type} (a : α) (l : List α) :
    (a :: l).getLast? = some (l.getLastD a) := by
  induction l generalizing a with
  | nil => rfl
  | cons b l ih => rw [List.getLast?_cons_cons, ih, List.getLastD_cons]

theorem pyLast_cons {α : Type} (a : α) (l : List α) :
    pyLast (a :: l) = .ok (l.getLastD a) := by
  simp [pyLast, getLast?_cons_eq]

theorem ok_bind {α β : Type} (a : α) (f : α → Except PyErr β) :
    (Except.ok a >>= f) = f a := rfl

theorem zip_tail {α β : Type} (as : List α) (bs : List β) :
    as.tail.zip bs.tail = (as.zip bs).tail := by
  cases as <;> cases bs <;> simp

theorem zip_reverse {α β : Type} (as : List α) (bs : List β) (h : as.length = bs.length) :
    as.reverse.zip bs.reverse = (as.zip bs).reverse := by
  simp only [List.zip]
  exact (List.reverse_zipWith h).symm

theorem zip3_tail (a b c : List ℚ) : zip3 a.tail b.tail c.tail = (zip3 a b c).tail := by
  unfold zip3
  rw [zip_tail b c, zip_tail a (b.zip c)]

theorem zip3_reverse (a b c : List ℚ) (hb : b.length = a.length) (hc : c.length = a.length) :
    zip3 a.reverse b.reverse c.reverse = (zip3 a b c).reverse := by
  unfold zip3
  rw [zip_reverse b c (by omega), zip_reverse a (b.zip c) (by simp [List.length_zip]; omega)]

theorem topSegs_adj (ts : List (ℚ × ℚ × ℚ)) (s : ℚ × ℚ × ℚ) :
    topSegs ts s = ((s :: ts).zip ts).map (fun pq => topCurve pq.1 pq.2) := by
  induction ts generalizing s with
  | nil => rfl
  | cons t ts ih =>
      obtain ⟨x, y, w⟩ := t
      obtain ⟨x0, y0, w0⟩ := s
      simp only [topSegs, List.zip_cons_cons, List.map_cons, ih, topCurve]

theorem botSegs_adj (ts : List (ℚ × ℚ × ℚ)) (s : ℚ × ℚ × ℚ) :
    botSegs ts s = ((s :: ts).zip ts).map (fun pq => botCurve pq.1 pq.2) := by
  induction ts generalizing s with
  | nil => rfl
  | cons t ts ih =>
      obtain ⟨x, y, w⟩ := t
      obtain ⟨x0, y0, w0⟩ := s
      simp only [botSegs, List.zip_cons_cons, List.map_cons, ih, botCurve]

theorem reverse_cons_eq (s : ℚ × ℚ × ℚ) (ts : List (ℚ × ℚ × ℚ)) :
    (s :: ts).reverse = ts.getLastD s :: (s :: ts).reverse.tail := by
  induction ts generalizing s with
  | nil => rfl
  | cons t ts ih =>
      conv_lhs => rw [List.reverse_cons, ih t, List.cons_append]
      rw [List.getLastD_cons]
      congr 1
      conv_rhs => rw [List.reverse_cons, ih t, List.cons_append, List.tail_cons]

theorem botSegs_last (s : Seg) (bots : List (ℚ × ℚ × ℚ)) (mid : ℚ × ℚ × ℚ) :
    ((s :: botSegs bots mid).getLast?).bind segPoint =
      (match bots.getLast? with
        | none => segPoint s
        | some q => some (q.1, q.2.1 + q.2.2)) := by
  induction bots generalizing s mid with
  | nil => simp [botSegs]
  | cons t ts ih =>
      obtain ⟨x, y, w⟩ := t
      obtain ⟨x0, y0, w0⟩ := mid
      simp only [botSegs, List.getLast?_cons_cons]
      rw [ih]
      rw [getLast?_cons_eq]
      cases hts : ts.getLast? with
      | none =>
          have hts2 : ts = [] := by
            cases ts with
            | nil => rfl
            | cons u us => rw [getLast?_cons_eq] at hts; cases hts
          subst hts2
          simp [segPoint]
      | some q =>
          have : ts.getLastD (x, y, w) = q := by
            cases ts with
            | nil => cases hts
            | cons u us =>
                rw [getLast?_cons_eq] at hts
                injection hts with hts
                rw [List.getLastD_cons, hts]
          rw [this]

theorem path_cons (x0 y0 w0 : ℚ) (xt yt wt : List ℚ) :
    (Clone.mk (Sum.inr (x0 :: xt)) (y0 :: yt) (w0 :: wt)).path =
      .ok (Seg.moveTo (x0, y0 - w0) :: topSegs (zip3 xt yt wt) (x0, y0, w0)
        ++ Seg.lineTo (xt.getLastD x0, yt.getLastD y0 + wt.getLastD w0)
          :: botSegs (zip3 (x0 :: xt).dropLast.reverse (y0 :: yt).dropLast.reverse
              ((w0 :: wt).dropLast.reverse)) ((zip3 xt yt wt).getLastD (x0, y0, w0))
        ++ [Seg.closePath]) := by
  simp only [Clone.path, pyGet_cons_zero, pyLast_cons, ok_bind, List.tail_cons]

theorem reverse_tail_getLast {α : Type} (a b : α) (l : List α) :
    ((a :: b :: l).reverse.tail).getLast? = some a := by
  rw [List.tail_reverse]
  have hdl : (a :: b :: l).dropLast = a :: (b :: l).dropLast := rfl
  rw [hdl, List.reverse_cons, List.getLast?_concat]

theorem connector_last_point (M : Seg) (Tl : List Seg) (pt : ℚ × ℚ)
    (bots : List (ℚ × ℚ × ℚ)) (mid : ℚ × ℚ × ℚ) :
    ((((M :: Tl) ++ (Seg.lineTo pt :: botSegs bots mid)) ++ [Seg.closePath]).dropLast.getLast?).bind
        segPoint =
      (match bots.getLast? with
        | none => some pt
        | some p => some (p.1, p.2.1 + p.2.2)) := by
  rw [List.dropLast_concat, List.getLast?_append, getLast?_cons_eq]
  simp only [Option.or]
  rw [← getLast?_cons_eq]
  exact botSegs_last _ bots mid

/-- Claim C7 as the code actually behaves: for any non-empty sample list
(equal-length coordinate lists), the contour starts at the first sample's
top edge, draws one cubic per adjacent sample pair with both control
points at the horizontal midpoint (previous top y as first control y,
current top y as second control y and endpoint y), drops a straight
connector from the last sample's top edge to its bottom edge, retraces the
samples in reverse along the bottom edge with the mirrored construction,
and a final close-path segment closes the contour.  The point reached
before the closing segment is the FIRST sample's bottom edge
`(x0, y0 + w0)`; it coincides with the top-edge start `(x0, y0 - w0)`
exactly when the first half-width is 0 (which holds for every clone the
layout produces), not in general. -/
theorem claim7_contour_amended (c : Clone) (xs : List ℚ)
    (hx : c.xs = Sum.inr xs) (hne : xs ≠ [])
    (hy : c.ys.length = xs.length) (hw : c.ws.length = xs.length) :
    ∃ segs, c.path = .ok segs
      ∧ segs = Seg.moveTo (xs.headD 0, c.ys.headD 0 - c.ws.headD 0)
          :: ((zip3 xs c.ys c.ws).zip (zip3 xs c.ys c.ws).tail).map
              (fun pq => topCurve pq.1 pq.2)
          ++ Seg.lineTo (xs.getLastD 0, c.ys.getLastD 0 + c.ws.getLastD 0)
          :: (((zip3 xs c.ys c.ws).reverse).zip ((zip3 xs c.ys c.ws).reverse).tail).map
              (fun pq => botCurve pq.1 pq.2)
          ++ [Seg.closePath]
      ∧ segs.getLast? = some Seg.closePath
      ∧ segs.dropLast.getLast?.bind segPoint
          = some (xs.headD 0, c.ys.headD 0 + c.ws.headD 0)
      ∧ (c.ws.headD 0 = 0 →
          segs.dropLast.getLast?.bind segPoint = segs.head?.bind segPoint) := by
  obtain ⟨cxs, ys, ws⟩ := c
  dsimp only at hx hy hw
  subst hx
  cases xs with
  | nil => exact absurd rfl hne
  | cons x0 xt =>
  cases ys with
  | nil => simp at hy
  | cons y0 yt =>
  cases ws with
  | nil => simp at hw
  | cons w0 wt =>
  have hy' : yt.length = xt.length := by simpa using hy
  have hw' : wt.length = xt.length := by simpa using hw
  have htop : topSegs (zip3 xt yt wt) (x0, y0, w0) =
      ((zip3 (x0 :: xt) (y0 :: yt) (w0 :: wt)).zip
        (zip3 (x0 :: xt) (y0 :: yt) (w0 :: wt)).tail).map (fun pq => topCurve pq.1 pq.2) := by
    rw [topSegs_adj]
    rfl
  have hbots : zip3 (x0 :: xt).dropLast.reverse (y0 :: yt).dropLast.reverse
        ((w0 :: wt).dropLast.reverse)
      = (zip3 (x0 :: xt) (y0 :: yt) (w0 :: wt)).reverse.tail := by
    rw [← List.tail_reverse (x0 :: xt), ← List.tail_reverse (y0 :: yt),
      ← List.tail_reverse (w0 :: wt), zip3_tail, zip3_reverse _ _ _ hy hw]
  have hbot : botSegs ((zip3 (x0 :: xt) (y0 :: yt) (w0 :: wt)).reverse.tail)
        ((zip3 xt yt wt).getLastD (x0, y0, w0))
      = (((zip3 (x0 :: xt) (y0 :: yt) (w0 :: wt)).reverse).zip
          ((zip3 (x0 :: xt) (y0 :: yt) (w0 :: wt)).reverse).tail).map
            (fun pq => botCurve pq.1 pq.2) := by
    rw [botSegs_adj]
    have hrc := reverse_cons_eq (x0, y0, w0) (zip3 xt yt wt)
    congr 1
    congr 1
    exact hrc.symm
  have hmatch :
      (match (zip3 (x0 :: xt) (y0 :: yt) (w0 :: wt)).reverse.tail.getLast? with
        | none => some ((xt.getLastD x0, yt.getLastD y0 + wt.getLastD w0) : ℚ × ℚ)
        | some p => some (p.1, p.2.1 + p.2.2)) = some (x0, y0 + w0) := by
    cases xt with
    | nil =>
        cases yt with
        | nil =>
            cases wt with
            | nil => rfl
            | cons w1 wt2 => simp at hw'
        | cons y1 yt2 => simp at hy'
    | cons x1 xt2 =>
        cases yt with
        | nil => simp at hy'
        | cons y1 yt2 =>
        cases wt with
        | nil => simp at hw'
        | cons w1 wt2 =>
        have hzc : zip3 (x0 :: x1 :: xt2) (y0 :: y1 :: yt2) (w0 :: w1 :: wt2)
            = (x0, y0, w0) :: (x1, y1, w1) :: zip3 xt2 yt2 wt2 := rfl
        rw [hzc, reverse_tail_getLast]
  refine ⟨_, path_cons x0 y0 w0 xt yt wt, ?_, ?_, ?_, ?_⟩
  · rw [htop, hbots, hbot]
    simp only [List.headD_cons, List.getLastD_cons]
  · exact List.getLast?_concat _
  · rw [connector_last_point, hbots, hmatch]
    simp
  · intro hw0
    simp only [List.headD_cons] at hw0
    rw [connector_last_point, hbots, hmatch]
    simp [List.cons_append, segPoint, hw0]

/-- Counterexample to C7 as stated: on a single-sample clone with half-width
1, the bottom edge's final traced point before closing is `(0, 1)` (the
first sample's bottom edge), which does not coincide with the top edge's
start point `(0, -1)`; the contour is closed only by the explicit
close-path segment. -/
theorem claim7_contour_counterexample :
    (Clone.mk (Sum.inr [0]) [0] [1]).path =
        .ok [Seg.moveTo (0, -1), Seg.lineTo (0, 1), Seg.closePath]
    ∧ ([Seg.moveTo ((0 : ℚ), -1), Seg.lineTo (0, 1),
        Seg.closePath] : List Seg).dropLast.getLast?.bind segPoint = some ((0 : ℚ), 1)
    ∧ ([Seg.moveTo ((0 : ℚ), -1), Seg.lineTo (0, 1),
        Seg.closePath] : List Seg).head?.bind segPoint = some ((0 : ℚ), -1)
    ∧ ¬ (((0 : ℚ), (1 : ℚ)) = ((0 : ℚ), (-1 : ℚ))) := by
  refine ⟨by with_unfolding_all decide, by with_unfolding_all decide,
    by with_unfolding_all decide, by with_unfolding_all decide⟩

/-- Concrete instance of the amended C7: the two-sample clone with times
`[0, 1]`, centers `[0, 0]` and half-widths `[0, 1/4]` (an emergence sample
followed by one observation). -/
theorem claim7_contour_amended_witness :
    (Clone.mk (Sum.inr [(0 : ℚ), 1]) [0, 0] [0, 1 / 4]).xs = Sum.inr [(0 : ℚ), 1]
    ∧ ([(0 : ℚ), 1] : List ℚ) ≠ []
    ∧ (Clone.mk (Sum.inr [(0 : ℚ), 1]) [0, 0] [0, 1 / 4]).ys.length
        = ([(0 : ℚ), 1] : List ℚ).length
    ∧ (Clone.mk (Sum.inr [(0 : ℚ), 1]) [0, 0] [0, 1 / 4]).ws.length
        = ([(0 : ℚ), 1] : List ℚ).length
    ∧ (∃ segs, (Clone.mk (Sum.inr [(0 : ℚ), 1]) [0, 0] [0, 1 / 4]).path = .ok segs
        ∧ segs = Seg.moveTo (([(0 : ℚ), 1] : List ℚ).headD 0,
              ([(0 : ℚ), 0] : List ℚ).headD 0 - ([(0 : ℚ), 1 / 4] : List ℚ).headD 0)
            :: ((zip3 [(0 : ℚ), 1] [0, 0] [0, 1 / 4]).zip
                (zip3 [(0 : ℚ), 1] [0, 0] [0, 1 / 4]).tail).map
                  (fun pq => topCurve pq.1 pq.2)
            ++ Seg.lineTo (([(0 : ℚ), 1] : List ℚ).getLastD 0,
                ([(0 : ℚ), 0] : List ℚ).getLastD 0 + ([(0 : ℚ), 1 / 4] : List ℚ).getLastD 0)
            :: (((zip3 [(0 : ℚ), 1] [0, 0] [0, 1 / 4]).reverse).zip
                ((zip3 [(0 : ℚ), 1] [0, 0] [0, 1 / 4]).reverse).tail).map
                  (fun pq => botCurve pq.1 pq.2)
            ++ [Seg.closePath]
        ∧ segs.getLast? = some Seg.closePath
        ∧ segs.dropLast.getLast?.bind segPoint
            = some (([(0 : ℚ), 1] : List ℚ).headD 0,
                ([(0 : ℚ), 0] : List ℚ).headD 0 + ([(0 : ℚ), 1 / 4] : List ℚ).headD 0)
        ∧ (([(0 : ℚ), 1 / 4] : List ℚ).headD 0 = 0 →
            segs.dropLast.getLast?.bind segPoint = segs.head?.bind segPoint)) :=
  ⟨rfl, by simp, rfl, rfl,
    claim7_contour_amended (Clone.mk (Sum.inr [(0 : ℚ), 1]) [0, 0] [0, 1 / 4])
      [(0 : ℚ), 1] rfl (by simp) rfl rfl⟩
